import Mathlib

/-!
Shallow embedding of the Telegram file bot (bot.py) and its web dashboard
(web_dashboard.py): the Wasabi storage adapter, the JSON-backed file
metadata store, the command / callback handlers and the dashboard
statistics, together with theorems settling the specification claims.

Text is modelled as List Char; Python dicts that back the metadata store
are modelled as association lists whose keys are unique in practice
(dict semantics: assignment replaces the first binding in place or
appends a fresh one at the end, preserving insertion order).
-/

set_option maxHeartbeats 1000000

/-- Helper: the character list of a string literal. -/
def cl (s : String) : List Char := s.toList

/-- Lookup in an association list, first binding wins (Python dict access). -/
def assocGet {V : Type} (s : List (List Char × V)) (k : List Char) : Option V :=
  match s with
  | [] => none
  | (k₀, v₀) :: rest => if k₀ = k then some v₀ else assocGet rest k

/-- Python dict assignment d[k] = v: replace the first binding of k in
place, otherwise append a fresh binding at the end (insertion order). -/
def dictInsert {V : Type} (s : List (List Char × V)) (k : List Char) (v : V) :
    List (List Char × V) :=
  match s with
  | [] => [(k, v)]
  | (k₀, v₀) :: rest =>
      if k₀ = k then (k, v) :: rest else (k₀, v₀) :: dictInsert rest k v

/-- Python string comparison s ≤ t: lexicographic on code points. -/
def pyStrLe : List Char → List Char → Bool
  | [], _ => true
  | _ :: _, [] => false
  | a :: as, b :: bs =>
      if a.toNat < b.toNat then true
      else if b.toNat < a.toNat then false
      else pyStrLe as bs

/-- FileRecord: the metadata dict written by handle_file_message in bot.py
(keys file_name, file_size, file_type, mime_type, user_id, upload_date,
download_url, wasabi_key, telegram_file_id; backup_message_id optional). -/
structure FileRecord where
  file_name : List Char
  file_size : Nat
  file_type : List Char
  mime_type : List Char
  user_id : Int
  upload_date : List Char
  download_url : List Char
  wasabi_key : List Char
  telegram_file_id : List Char
  backup_message_id : Option Int := none
deriving DecidableEq

/-- The files.json mapping: file id → metadata, in dict insertion order. -/
abbrev Store := List (List Char × FileRecord)

/-- Ordering used by FileManager.list_files: pair a sorts no later than
pair b in the descending output when b's upload_date ≤ a's upload_date. -/
def dateGe (a b : List Char × FileRecord) : Prop :=
  pyStrLe b.2.upload_date a.2.upload_date = true

instance (a b : List Char × FileRecord) : Decidable (dateGe a b) := by
  unfold dateGe; infer_instance

/-- One step of the descending-by-upload_date sort of list_files. -/
def insertDesc (x : List Char × FileRecord) :
    List (List Char × FileRecord) → List (List Char × FileRecord)
  | [] => [x]
  | y :: ys =>
      if pyStrLe y.2.upload_date x.2.upload_date then x :: y :: ys
      else y :: insertDesc x ys

/-- sorted(user_files, key=lambda x: x.get('upload_date', ''), reverse=True). -/
def sortByDateDesc : List (List Char × FileRecord) → List (List Char × FileRecord)
  | [] => []
  | x :: xs => insertDesc x (sortByDateDesc xs)

/-- FileManager state: the in-memory mapping plus the content currently
persisted in files.json (none if nothing was ever successfully written). -/
structure FileManager where
  files : Store
  disk : Option Store
deriving DecidableEq

/-- On-disk state of files.json as seen by load_files. -/
inductive DiskFile
  | absent
  | present (content : List Char)

/-- Body of the try block of load_files: the os.path.exists check and the
json.load call, which may raise (modelled by the abstract parse function). -/
def json_read (parse : List Char → Except (List Char) Store) (d : DiskFile) :
    Except (List Char) Store :=
  match d with
  | .absent => .ok []
  | .present c => parse c

/-- FileManager.load_files (bot.py) and BotMonitor.load_files
(web_dashboard.py): read files.json inside try/except, returning the
empty mapping when the file is absent or the read/parse raises. -/
def load_files (parse : List Char → Except (List Char) Store) (d : DiskFile) :
    Store :=
  match json_read parse d with
  | .ok m => m
  | .error _ => []

/-- FileManager.save_files: overwrite files.json with the full mapping;
a write error is caught and logged, leaving the old disk content. -/
def save_files (fm : FileManager) (writeOk : Bool) : FileManager :=
  if writeOk then { fm with disk := some fm.files } else fm

/-- FileManager.add_file: self.files[file_id] = metadata; self.save_files(). -/
def add_file (fm : FileManager) (file_id : List Char) (metadata : FileRecord)
    (writeOk : Bool) : FileManager :=
  save_files { fm with files := dictInsert fm.files file_id metadata } writeOk

/-- FileManager.get_file: self.files.get(file_id). -/
def get_file (fm : FileManager) (file_id : List Char) : Option FileRecord :=
  assocGet fm.files file_id

/-- FileManager.list_files: collect the records whose user_id matches,
each augmented with its file_id, then sort by upload_date descending. -/
def list_files (files : Store) (user_id : Int) :
    List (List Char × FileRecord) :=
  sortByDateDesc (files.filter (fun p => decide (p.2.user_id = user_id)))

/-- FileManager.delete_file: remove the binding if present. -/
def delete_file (fm : FileManager) (file_id : List Char) (writeOk : Bool) :
    FileManager × Bool :=
  if (assocGet fm.files file_id).isSome then
    let remaining := fm.files.filter (fun p => decide (p.1 ≠ file_id))
    (save_files { fm with files := remaining } writeOk, true)
  else (fm, false)

/-- Python str.replace(pat, "") for a pattern: remove every occurrence of
pat, scanning left to right and resuming after each removed occurrence.
The pat = [] guard only keeps the recursion total; every use in the code
has a nonempty literal pattern. -/
def stripAll (pat : List Char) : List Char → List Char
  | [] => []
  | c :: rest =>
      if pat ≠ [] ∧ pat.isPrefixOf (c :: rest) = true then
        stripAll pat (List.drop (pat.length - 1) rest)
      else c :: stripAll pat rest
termination_by l => l.length
decreasing_by
  · simp only [List.length_cons, List.length_drop]
    omega
  · simp only [List.length_cons]
    omega

/-- Whether pat occurs as a contiguous substring of the list. -/
def hasSub (pat : List Char) : List Char → Bool
  | [] => pat.isEmpty
  | c :: rest => pat.isPrefixOf (c :: rest) || hasSub pat rest

/-- WasabiStorage.__init__ region cleanup:
if self.region.startswith('s3.'): self.region = self.region.replace('s3.', ''). -/
def wasabi_clean_region (region : List Char) : List Char :=
  if (cl "s3.").isPrefixOf region = true then stripAll (cl "s3.") region
  else region

/-- The claim's reading of the region cleanup: remove exactly the leading
"s3." and change nothing else in the string. -/
def claimStripLeading (region : List Char) : List Char :=
  if (cl "s3.").isPrefixOf region = true then region.drop 3 else region

/-- WasabiStorage.generate_presigned_url, abstracting the boto3 signing
call by a deterministic tag on the object key. -/
def generate_presigned_url (key : List Char) (expiration : Nat) : List Char :=
  cl "presigned:" ++ key ++ cl "?expires=" ++ cl (toString expiration)

/-- The progress percentages delivered by the upload_callback closure of
WasabiStorage.upload_file: uploaded accumulates the callback byte counts;
each step computes progress = uploaded / file_size * 100 and reports it
iff progress - last_reported >= 5 or progress >= 100, updating
last_reported to the reported progress. -/
def uploadReportsFrom (fileSize : ℚ) : List ℚ → ℚ → ℚ → List ℚ
  | [], _, _ => []
  | c :: rest, uploaded, lastReported =>
      if (uploaded + c) / fileSize * 100 - lastReported ≥ 5 ∨
          (uploaded + c) / fileSize * 100 ≥ 100 then
        ((uploaded + c) / fileSize * 100) ::
          uploadReportsFrom fileSize rest (uploaded + c)
            ((uploaded + c) / fileSize * 100)
      else uploadReportsFrom fileSize rest (uploaded + c) lastReported

/-- All progress values delivered for one upload (initial state 0, 0). -/
def upload_file_reports (fileSize : ℚ) (chunks : List ℚ) : List ℚ :=
  uploadReportsFrom fileSize chunks 0 0

/-- The user-visible replies the read/action handlers can produce.
fileDetails carries the record whose fields the reply text renders and,
when the reply shows a link, that link. -/
inductive Reply
  | usageHint
  | notFound
  | accessDenied
  | fileDetails (r : FileRecord) (url : Option (List Char))
  | uploadPrompt
  | fileList (count : Nat)
  | connStatus (ok : Bool)
deriving DecidableEq

/-- Result of one handler run: the reply sent (none: handler fell through
without sending anything) and the object keys it presigned. -/
structure Outcome where
  reply : Option Reply
  presigned : List (List Char)
deriving DecidableEq

/-- TelegramFileBot.handle_download; args are message.command[1:]. -/
def handle_download (fm : Store) (uid : Int) (args : List (List Char)) :
    Outcome :=
  match args with
  | [] => ⟨some .usageHint, []⟩
  | file_id :: _ =>
      match assocGet fm file_id with
      | none => ⟨some .notFound, []⟩
      | some r =>
          if r.user_id ≠ uid then ⟨some .accessDenied, []⟩
          else ⟨some (.fileDetails r (some r.download_url)), []⟩

/-- TelegramFileBot.handle_stream. -/
def handle_stream (fm : Store) (uid : Int) (args : List (List Char)) :
    Outcome :=
  match args with
  | [] => ⟨some .usageHint, []⟩
  | file_id :: _ =>
      match assocGet fm file_id with
      | none => ⟨some .notFound, []⟩
      | some r =>
          if r.user_id ≠ uid then ⟨some .accessDenied, []⟩
          else
            ⟨some (.fileDetails r (some (generate_presigned_url r.wasabi_key 86400))),
             [r.wasabi_key]⟩

/-- TelegramFileBot.handle_web_player. -/
def handle_web_player (fm : Store) (uid : Int) (args : List (List Char)) :
    Outcome :=
  match args with
  | [] => ⟨some .usageHint, []⟩
  | file_id :: _ =>
      match assocGet fm file_id with
      | none => ⟨some .notFound, []⟩
      | some r =>
          if r.user_id ≠ uid then ⟨some .accessDenied, []⟩
          else
            ⟨some (.fileDetails r (some (generate_presigned_url r.wasabi_key 86400))),
             [r.wasabi_key]⟩

/-- download_<id> callback branch: body runs only when the record exists
and the requester owns it; otherwise the handler falls through silently. -/
def cbDownload (fm : Store) (uid : Int) (file_id : List Char) : Outcome :=
  match assocGet fm file_id with
  | some r =>
      if r.user_id = uid then ⟨some (.fileDetails r (some r.download_url)), []⟩
      else ⟨none, []⟩
  | none => ⟨none, []⟩

/-- stream_<id> callback branch (presigns on the owner path only). -/
def cbStream (fm : Store) (uid : Int) (file_id : List Char) : Outcome :=
  match assocGet fm file_id with
  | some r =>
      if r.user_id = uid then
        ⟨some (.fileDetails r (some (generate_presigned_url r.wasabi_key 86400))),
         [r.wasabi_key]⟩
      else ⟨none, []⟩
  | none => ⟨none, []⟩

/-- web_<id> callback branch. -/
def cbWeb (fm : Store) (uid : Int) (file_id : List Char) : Outcome :=
  cbStream fm uid file_id

/-- mx_<id> callback branch. -/
def cbMx (fm : Store) (uid : Int) (file_id : List Char) : Outcome :=
  cbStream fm uid file_id

/-- vlc_<id> callback branch. -/
def cbVlc (fm : Store) (uid : Int) (file_id : List Char) : Outcome :=
  cbStream fm uid file_id

/-- file_info_<id> callback branch: shows the record fields, no link. -/
def cbFileInfo (fm : Store) (uid : Int) (file_id : List Char) : Outcome :=
  match assocGet fm file_id with
  | some r =>
      if r.user_id = uid then ⟨some (.fileDetails r none), []⟩
      else ⟨none, []⟩
  | none => ⟨none, []⟩

/-- TelegramFileBot.handle_callback_query: the if/elif dispatch on the
callback data string, with prefix tests and file-id extraction by
data.replace(prefix, ''). -/
def handle_callback_query (fm : Store) (wasabiOk : Bool) (uid : Int)
    (data : List Char) : Outcome :=
  if data = cl "upload_file" then ⟨some .uploadPrompt, []⟩
  else if data = cl "list_files" then
    ⟨some (.fileList (list_files fm uid).length), []⟩
  else if data = cl "test_connection" then ⟨some (.connStatus wasabiOk), []⟩
  else if (cl "download_").isPrefixOf data = true then
    cbDownload fm uid (stripAll (cl "download_") data)
  else if (cl "stream_").isPrefixOf data = true then
    cbStream fm uid (stripAll (cl "stream_") data)
  else if (cl "web_").isPrefixOf data = true then
    cbWeb fm uid (stripAll (cl "web_") data)
  else if (cl "mx_").isPrefixOf data = true then
    cbMx fm uid (stripAll (cl "mx_") data)
  else if (cl "vlc_").isPrefixOf data = true then
    cbVlc fm uid (stripAll (cl "vlc_") data)
  else if (cl "file_info_").isPrefixOf data = true then
    cbFileInfo fm uid (stripAll (cl "file_info_") data)
  else ⟨none, []⟩

/-- The 4 GB size limit of handle_file_message: 4 * 1024 * 1024 * 1024. -/
def MAX_FILE_SIZE : Nat := 4 * 1024 * 1024 * 1024

/-- Control-flow skeleton of TelegramFileBot.handle_file_message: the size
gate runs before the temp directory is created and before
message.download is invoked; add_file runs only after download and upload
both succeed (a failure jumps to the except block). -/
structure UploadTrace where
  sizeRejected : Bool
  downloadStarted : Bool
  recordWritten : Bool
deriving DecidableEq

def handle_file_message (file_size : Nat) (downloadOk uploadOk : Bool) :
    UploadTrace :=
  if file_size > MAX_FILE_SIZE then ⟨true, false, false⟩
  else if downloadOk = false then ⟨false, true, false⟩
  else if uploadOk = false then ⟨false, true, false⟩
  else ⟨false, true, true⟩

/-- download_progress in handle_file_message: the displayed total
percentage for the download phase, (current / total) * 50. -/
def download_progress_percent (current total : ℚ) : ℚ :=
  current / total * 50

/-- download_progress edit condition:
abs(progress - last_progress) >= 5 or progress == 0 or progress >= 50. -/
def download_progress_emits (last_progress progress : ℚ) : Bool :=
  decide (|progress - last_progress| ≥ 5) || decide (progress = 0) ||
    decide (progress ≥ 50)

/-- upload_progress in handle_file_message: 50 + (progress / 2), mapping
the storage adapter's 0–100 into the 50–100 band. -/
def upload_total_percent (p : ℚ) : ℚ := 50 + p / 2

/-- upload_progress edit condition:
abs(total_progress - upload_last_progress) >= 5 or total_progress >= 100. -/
def upload_progress_emits (upload_last_progress total_progress : ℚ) : Bool :=
  decide (|total_progress - upload_last_progress| ≥ 5) ||
    decide (total_progress ≥ 100)

/-- str.replace with a single-character pattern and replacement. -/
def charReplace (a b : Char) (l : List Char) : List Char :=
  l.map (fun c => if c = a then b else c)

/-- safe_file_id = file_obj.file_id.replace("/", "_").replace("\\", "_"). -/
def safe_file_id (file_id : List Char) : List Char :=
  charReplace '\\' '_' (charReplace '/' '_' file_id)

/-- temp_file = os.path.join("temp_files", "temp_" + safe_file_id). -/
def temp_file_path (file_id : List Char) : List Char :=
  cl "temp_files" ++ '/' :: (cl "temp_" ++ safe_file_id file_id)

/-- Python timedelta .days of a difference of deltaSeconds seconds:
floor division by 86400. -/
def timedelta_days (deltaSeconds : Int) : Int :=
  Int.fdiv deltaSeconds 86400

/-- The recent-uploads loop of BotMonitor.get_stats: parse each record's
upload_date (datetime.fromisoformat, which may raise — modelled by the
abstract parseTs returning none), count it when (now - upload_date).days
== 0, and skip records whose parse raises. -/
def get_stats_recent_count (parseTs : List Char → Option Int) (now : Int)
    (files : Store) : Nat :=
  files.foldl (fun acc p =>
    match parseTs p.2.upload_date with
    | some t => if timedelta_days (now - t) = 0 then acc + 1 else acc
    | none => acc) 0

/-- A concrete record used to instantiate witnesses. -/
def sampleRecord : FileRecord where
  file_name := cl "video.mp4"
  file_size := 1024
  file_type := cl "video"
  mime_type := cl "video/mp4"
  user_id := 42
  upload_date := cl "2025-01-01T00:00:00"
  download_url := cl "https://s3.us-east-1.wasabisys.com/bucket/files/abcd_video.mp4"
  wasabi_key := cl "files/abcd_video.mp4"
  telegram_file_id := cl "BAACAgEAAxkBAAM"

/-! ## Helper lemmas -/

theorem assocGet_dictInsert_same {V : Type} (s : List (List Char × V))
    (k : List Char) (v : V) : assocGet (dictInsert s k v) k = some v := by
  induction s with
  | nil => simp [dictInsert, assocGet]
  | cons hd tl ih =>
      obtain ⟨k₀, v₀⟩ := hd
      by_cases h : k₀ = k
      · simp [dictInsert, assocGet, h]
      · simp [dictInsert, assocGet, h, ih]

theorem assocGet_dictInsert_other {V : Type} (s : List (List Char × V))
    (k k' : List Char) (v : V) (hne : k' ≠ k) :
    assocGet (dictInsert s k v) k' = assocGet s k' := by
  have hkk : ¬ (k = k') := fun h => hne h.symm
  induction s with
  | nil => simp [dictInsert, assocGet, hkk]
  | cons hd tl ih =>
      obtain ⟨k₀, v₀⟩ := hd
      by_cases h : k₀ = k
      · subst h
        simp [dictInsert, assocGet, hkk]
      · simp only [dictInsert, if_neg h, assocGet]
        by_cases h' : k₀ = k'
        · simp [h']
        · simp [h', ih]

theorem pyStrLe_total (a b : List Char) : pyStrLe a b = true ∨ pyStrLe b a = true := by
  induction a generalizing b with
  | nil => left; rfl
  | cons x xs ih =>
      cases b with
      | nil => right; rfl
      | cons y ys =>
          by_cases hxy : x.toNat < y.toNat
          · left; simp [pyStrLe, hxy]
          · by_cases hyx : y.toNat < x.toNat
            · right; simp [pyStrLe, hyx]
            · rcases ih ys with h | h
              · left; simp [pyStrLe, hxy, hyx, h]
              · right; simp [pyStrLe, hyx, hxy, h]

theorem pyStrLe_trans {a b c : List Char} (hab : pyStrLe a b = true)
    (hbc : pyStrLe b c = true) : pyStrLe a c = true := by
  induction a generalizing b c with
  | nil => rfl
  | cons x xs ih =>
      cases b with
      | nil => simp [pyStrLe] at hab
      | cons y ys =>
          cases c with
          | nil => simp [pyStrLe] at hbc
          | cons z zs =>
              simp only [pyStrLe] at hab hbc ⊢
              by_cases hxy : x.toNat < y.toNat
              · by_cases hyz : y.toNat < z.toNat
                · simp [Nat.lt_trans hxy hyz]
                · by_cases hzy : z.toNat < y.toNat
                  · rw [if_neg hyz, if_pos hzy] at hbc
                    exact absurd hbc (by simp)
                  · have heq : y.toNat = z.toNat :=
                      Nat.le_antisymm (Nat.le_of_not_lt hzy) (Nat.le_of_not_lt hyz)
                    simp [heq ▸ hxy]
              · by_cases hyx : y.toNat < x.toNat
                · rw [if_neg hxy, if_pos hyx] at hab
                  exact absurd hab (by simp)
                · have hxey : x.toNat = y.toNat :=
                    Nat.le_antisymm (Nat.le_of_not_lt hyx) (Nat.le_of_not_lt hxy)
                  rw [if_neg hxy, if_neg hyx] at hab
                  by_cases hyz : y.toNat < z.toNat
                  · simp [hxey ▸ hyz]
                  · by_cases hzy : z.toNat < y.toNat
                    · rw [if_neg hyz, if_pos hzy] at hbc
                      exact absurd hbc (by simp)
                    · have hyez : y.toNat = z.toNat :=
                        Nat.le_antisymm (Nat.le_of_not_lt hzy) (Nat.le_of_not_lt hyz)
                      have hxz : ¬ x.toNat < z.toNat := by
                        rw [hxey, hyez]; exact Nat.lt_irrefl _
                      have hzx : ¬ z.toNat < x.toNat := by
                        rw [hxey, hyez]; exact Nat.lt_irrefl _
                      rw [if_neg hyz, if_neg hzy] at hbc
                      rw [if_neg hxz, if_neg hzx]
                      exact ih hab hbc

theorem insertDesc_perm (x : List Char × FileRecord)
    (l : List (List Char × FileRecord)) : (insertDesc x l).Perm (x :: l) := by
  induction l with
  | nil => simp [insertDesc]
  | cons y ys ih =>
      by_cases h : pyStrLe y.2.upload_date x.2.upload_date = true
      · simp [insertDesc, h]
      · simp only [insertDesc, if_neg h]
        exact (ih.cons y).trans (List.Perm.swap x y ys)

theorem sortByDateDesc_perm (l : List (List Char × FileRecord)) :
    (sortByDateDesc l).Perm l := by
  induction l with
  | nil => simp [sortByDateDesc]
  | cons x xs ih =>
      exact (insertDesc_perm x (sortByDateDesc xs)).trans (ih.cons x)

theorem insertDesc_pairwise (x : List Char × FileRecord)
    (l : List (List Char × FileRecord)) (hl : l.Pairwise dateGe) :
    (insertDesc x l).Pairwise dateGe := by
  induction l with
  | nil => simp [insertDesc]
  | cons y ys ih =>
      rcases List.pairwise_cons.mp hl with ⟨hy, hys⟩
      by_cases h : pyStrLe y.2.upload_date x.2.upload_date = true
      · simp only [insertDesc, if_pos h]
        refine List.pairwise_cons.mpr ⟨?_, hl⟩
        intro z hz
        rcases List.mem_cons.mp hz with rfl | hz
        · exact h
        · exact pyStrLe_trans (hy z hz) h
      · simp only [insertDesc, if_neg h]
        refine List.pairwise_cons.mpr ⟨?_, ih hys⟩
        intro z hz
        have hz' : z = x ∨ z ∈ ys := by
          have hm := (List.Perm.mem_iff (insertDesc_perm x ys)).mp hz
          simpa using hm
        rcases hz' with rfl | hz'
        · rcases pyStrLe_total z.2.upload_date y.2.upload_date with ht | ht
          · exact ht
          · exact absurd ht h
        · exact hy z hz'

theorem sortByDateDesc_pairwise (l : List (List Char × FileRecord)) :
    (sortByDateDesc l).Pairwise dateGe := by
  induction l with
  | nil => simp [sortByDateDesc]
  | cons x xs ih => exact insertDesc_pairwise x (sortByDateDesc xs) ih

theorem isPrefixOf_exists {pat l : List Char} (h : pat.isPrefixOf l = true) :
    ∃ t, l = pat ++ t := by
  induction pat generalizing l with
  | nil => exact ⟨l, rfl⟩
  | cons a as ih =>
      cases l with
      | nil => simp [List.isPrefixOf] at h
      | cons b bs =>
          simp only [List.isPrefixOf, Bool.and_eq_true, beq_iff_eq] at h
          obtain ⟨rfl, h2⟩ := h
          obtain ⟨t, rfl⟩ := ih h2
          exact ⟨t, rfl⟩

theorem isPrefixOf_append (pat t : List Char) :
    pat.isPrefixOf (pat ++ t) = true := by
  induction pat with
  | nil => simp
  | cons a as ih => simp [List.isPrefixOf, ih]

/-- If the pattern occurs nowhere, replace is the identity. -/
theorem stripAll_not_occurs {pat l : List Char} (h : hasSub pat l = false) :
    stripAll pat l = l := by
  induction l with
  | nil => simp [stripAll]
  | cons c rest ih =>
      simp only [hasSub, Bool.or_eq_false_iff] at h
      rw [stripAll, if_neg, ih h.2]
      rintro ⟨-, hpre⟩
      rw [h.1] at hpre
      exact Bool.false_ne_true hpre

/-- Replace consumes a leading occurrence of the pattern whole. -/
theorem stripAll_append_self {pat : List Char} (hne : pat ≠ []) (t : List Char) :
    stripAll pat (pat ++ t) = stripAll pat t := by
  cases pat with
  | nil => exact absurd rfl hne
  | cons a as =>
      rw [List.cons_append, stripAll, if_pos]
      · have hd : List.drop ((a :: as).length - 1) (as ++ t) = t := by
          simp only [List.length_cons, Nat.add_sub_cancel]
          exact List.drop_left as t
        rw [hd]
      · exact ⟨hne, by rw [← List.cons_append]; exact isPrefixOf_append (a :: as) t⟩

/-- Heads of lists that a nonempty pattern is a prefix of. -/
theorem isPrefixOf_head {p : Char} {ps l : List Char}
    (h : (p :: ps).isPrefixOf l = true) : l.head? = some p := by
  obtain ⟨t, rfl⟩ := isPrefixOf_exists h
  rfl

/-- Every progress value delivered from state (u, l) is at least the
percentage already accumulated at u. -/
theorem uploadReportsFrom_ge (fs : ℚ) (chunks : List ℚ) (u l : ℚ)
    (hfs : 0 < fs) (hc : ∀ c ∈ chunks, 0 ≤ c) :
    ∀ x ∈ uploadReportsFrom fs chunks u l, u / fs * 100 ≤ x := by
  induction chunks generalizing u l with
  | nil => simp [uploadReportsFrom]
  | cons c rest ih =>
      intro x hx
      have hc0 : 0 ≤ c := hc c (List.mem_cons_self c rest)
      have hrest : ∀ d ∈ rest, 0 ≤ d := fun d hd => hc d (List.mem_cons_of_mem c hd)
      have hmono : u / fs * 100 ≤ (u + c) / fs * 100 := by
        have hdiv : u / fs ≤ (u + c) / fs := by
          have hmul := mul_le_mul_of_nonneg_right
            (show u ≤ u + c by linarith) (le_of_lt (inv_pos.mpr hfs))
          simpa [div_eq_mul_inv] using hmul
        linarith
      simp only [uploadReportsFrom] at hx
      by_cases hcond : (u + c) / fs * 100 - l ≥ 5 ∨ (u + c) / fs * 100 ≥ 100
      · rw [if_pos hcond] at hx
        rcases List.mem_cons.mp hx with rfl | hx
        · exact hmono
        · exact le_trans hmono (ih (u + c) _ hrest x hx)
      · rw [if_neg hcond] at hx
        exact le_trans hmono (ih (u + c) l hrest x hx)

/-- The delivered progress values are non-decreasing. -/
theorem uploadReportsFrom_pairwise (fs : ℚ) (chunks : List ℚ) (u l : ℚ)
    (hfs : 0 < fs) (hc : ∀ c ∈ chunks, 0 ≤ c) :
    (uploadReportsFrom fs chunks u l).Pairwise (· ≤ ·) := by
  induction chunks generalizing u l with
  | nil => simp [uploadReportsFrom]
  | cons c rest ih =>
      have hrest : ∀ d ∈ rest, 0 ≤ d := fun d hd => hc d (List.mem_cons_of_mem c hd)
      simp only [uploadReportsFrom]
      by_cases hcond : (u + c) / fs * 100 - l ≥ 5 ∨ (u + c) / fs * 100 ≥ 100
      · rw [if_pos hcond]
        refine List.pairwise_cons.mpr ⟨?_, ih (u + c) _ hrest⟩
        intro x hx
        exact uploadReportsFrom_ge fs rest (u + c) _ hfs hrest x hx
      · rw [if_neg hcond]
        exact ih (u + c) l hrest

/-- One unfolding step of uploadReportsFrom. -/
theorem uploadReportsFrom_cons (fs c u l : ℚ) (rest : List ℚ) :
    uploadReportsFrom fs (c :: rest) u l =
      if (u + c) / fs * 100 - l ≥ 5 ∨ (u + c) / fs * 100 ≥ 100 then
        ((u + c) / fs * 100) ::
          uploadReportsFrom fs rest (u + c) ((u + c) / fs * 100)
      else uploadReportsFrom fs rest (u + c) l := rfl

/-- The last delivered progress value of a completed upload is 100. -/
theorem uploadReportsFrom_getLast (fs : ℚ) (chunks : List ℚ) (u l : ℚ)
    (hfs : 0 < fs) (hc : ∀ c ∈ chunks, 0 ≤ c)
    (hsum : u + chunks.sum = fs) (hne : chunks ≠ []) :
    (uploadReportsFrom fs chunks u l).getLast? = some 100 := by
  induction chunks generalizing u l with
  | nil => exact absurd rfl hne
  | cons c rest ih =>
      cases rest with
      | nil =>
          have hcu : u + c = fs := by simpa using hsum
          have hp : (u + c) / fs * 100 = 100 := by
            rw [hcu, div_self (ne_of_gt hfs), one_mul]
          simp only [uploadReportsFrom]
          rw [if_pos (Or.inr (le_of_eq hp.symm)), hp]
          simp [uploadReportsFrom]
      | cons d rest2 =>
          have hrest : ∀ x ∈ d :: rest2, 0 ≤ x :=
            fun x hx => hc x (List.mem_cons_of_mem c hx)
          have hsum' : (u + c) + (d :: rest2).sum = fs := by
            simp only [List.sum_cons] at hsum ⊢
            linarith
          rw [uploadReportsFrom_cons]
          by_cases hcond : (u + c) / fs * 100 - l ≥ 5 ∨ (u + c) / fs * 100 ≥ 100
          · rw [if_pos hcond]
            have htail := ih (u + c) ((u + c) / fs * 100) hrest hsum'
              (List.cons_ne_nil d rest2)
            revert htail
            generalize uploadReportsFrom fs (d :: rest2) (u + c)
                ((u + c) / fs * 100) = T
            intro htail
            cases T with
            | nil => simp at htail
            | cons a as => rw [List.getLast?_cons_cons]; exact htail
          · rw [if_neg hcond]
            exact ih (u + c) l hrest hsum' (List.cons_ne_nil d rest2)

/-- timedelta .days is 0 exactly on the window [0 s, 86400 s). -/
theorem timedelta_days_eq_zero_iff (d : Int) :
    timedelta_days d = 0 ↔ 0 ≤ d ∧ d < 86400 := by
  unfold timedelta_days
  constructor
  · intro h
    constructor
    · by_contra hneg
      push_neg at hneg
      have hlt := Int.fdiv_neg' hneg (show (0:Int) < 86400 by norm_num)
      omega
    · by_contra hge
      push_neg at hge
      have h1 : (1 : Int) ≤ d / 86400 := by
        rw [Int.le_ediv_iff_mul_le (show (0:Int) < 86400 by norm_num)]
        omega
      rw [Int.fdiv_eq_ediv d (show (0:Int) ≤ 86400 by norm_num)] at h
      omega
  · rintro ⟨h0, h1⟩
    rw [Int.fdiv_eq_ediv d (show (0:Int) ≤ 86400 by norm_num)]
    exact Int.ediv_eq_zero_of_lt h0 h1

/-- Fold characterization of the recent-uploads counter. -/
theorem get_stats_recent_count_go (parseTs : List Char → Option Int)
    (now : Int) (files : Store) (acc : Nat) :
    files.foldl (fun acc p =>
        match parseTs p.2.upload_date with
        | some t => if timedelta_days (now - t) = 0 then acc + 1 else acc
        | none => acc) acc =
      acc + (files.filter (fun p =>
        match parseTs p.2.upload_date with
        | some t => decide (0 ≤ now - t ∧ now - t < 86400)
        | none => false)).length := by
  induction files generalizing acc with
  | nil => simp
  | cons p rest ih =>
      simp only [List.foldl_cons, List.filter_cons]
      rcases hp : parseTs p.2.upload_date with - | t
      · simp only [hp]
        exact ih acc
      · simp only [hp]
        by_cases ht : timedelta_days (now - t) = 0
        · have hdec : decide (0 ≤ now - t ∧ now - t < 86400) = true := by
            rw [decide_eq_true_eq]
            exact (timedelta_days_eq_zero_iff (now - t)).mp ht
          rw [if_pos ht, ih (acc + 1)]
          simp only [hdec, if_true, List.length_cons]
          omega
        · have hdec : decide (0 ≤ now - t ∧ now - t < 86400) = false := by
            rw [decide_eq_false_iff_not]
            intro hcontra
            exact ht ((timedelta_days_eq_zero_iff (now - t)).mpr hcontra)
          rw [if_neg ht, ih acc]
          simp only [hdec]
          simp

/-! ## Claim theorems -/

/-- C2: for every inbound file message with declared size s, if
s > 4 * 1024^3 the upload is rejected before the download starts and no
metadata record is written; if s equals the limit exactly, the handler
proceeds past the gate and starts the download. -/
theorem c2_size_gate (file_size : Nat) (downloadOk uploadOk : Bool) :
    (file_size > MAX_FILE_SIZE →
      handle_file_message file_size downloadOk uploadOk =
        ⟨true, false, false⟩) ∧
    (file_size = MAX_FILE_SIZE →
      (handle_file_message file_size downloadOk uploadOk).sizeRejected = false ∧
      (handle_file_message file_size downloadOk uploadOk).downloadStarted = true) := by
  constructor
  · intro h
    simp [handle_file_message, h]
  · intro h
    subst h
    have hng : ¬ MAX_FILE_SIZE > MAX_FILE_SIZE := lt_irrefl _
    cases downloadOk <;> cases uploadOk <;>
      simp [handle_file_message, hng]

/-- Witness for c2_size_gate at the boundary sizes. -/
theorem c2_size_gate_witness :
    handle_file_message (MAX_FILE_SIZE + 1) true true = ⟨true, false, false⟩ ∧
    (handle_file_message MAX_FILE_SIZE true true).sizeRejected = false ∧
    (handle_file_message MAX_FILE_SIZE true true).downloadStarted = true :=
  ⟨(c2_size_gate (MAX_FILE_SIZE + 1) true true).1 (Nat.lt_succ_self _),
   (c2_size_gate MAX_FILE_SIZE true true).2 rfl⟩

/-- C4: list_files returns exactly the store entries whose user_id equals
the requested owner, each as a (file_id, record) pair, ordered so that
every entry's upload_date is ≥ that of every later entry (descending). -/
theorem c4_list_files (files : Store) (user_id : Int) :
    (list_files files user_id).Perm
      (files.filter (fun p => decide (p.2.user_id = user_id))) ∧
    (list_files files user_id).Pairwise dateGe :=
  ⟨sortByDateDesc_perm _, sortByDateDesc_pairwise _⟩

/-- C5: load_files never lets an error escape: for every on-disk state it
returns the parsed mapping when the file exists and parses, and the empty
mapping when the file is absent or the read/parse raises. -/
theorem c5_load_files (parse : List Char → Except (List Char) Store)
    (d : DiskFile) :
    (d = DiskFile.absent → load_files parse d = []) ∧
    (∀ c m, d = DiskFile.present c → parse c = Except.ok m →
      load_files parse d = m) ∧
    (∀ c e, d = DiskFile.present c → parse c = Except.error e →
      load_files parse d = []) := by
  refine ⟨?_, ?_, ?_⟩
  · rintro rfl
    rfl
  · rintro c m rfl hp
    simp [load_files, json_read, hp]
  · rintro c e rfl hp
    simp [load_files, json_read, hp]

/-- Witness for c5_load_files: a parse that always raises yields the empty
mapping on a present file, and an absent file also yields it. -/
theorem c5_load_files_witness :
    load_files (fun c => Except.error c) (DiskFile.present (cl "corrupt")) = [] ∧
    load_files (fun c => Except.error c) DiskFile.absent = [] :=
  ⟨(c5_load_files (fun c => Except.error c) (DiskFile.present (cl "corrupt"))).2.2
      (cl "corrupt") (cl "corrupt") rfl rfl,
   (c5_load_files (fun c => Except.error c) DiskFile.absent).1 rfl⟩

/-- C6: add_file makes get_file of the same id return the new record,
silently overwriting any prior binding (no error path exists), leaves
every other id unchanged, and — when the write succeeds — persists the
full new mapping to disk. -/
theorem c6_add_file (fm : FileManager) (k : List Char) (v : FileRecord)
    (writeOk : Bool) :
    get_file (add_file fm k v writeOk) k = some v ∧
    (∀ k', k' ≠ k → get_file (add_file fm k v writeOk) k' = get_file fm k') ∧
    (writeOk = true →
      (add_file fm k v writeOk).disk = some ((add_file fm k v writeOk).files) ∧
      (add_file fm k v writeOk).files = dictInsert fm.files k v) := by
  refine ⟨?_, ?_, ?_⟩
  · cases writeOk <;>
      simp [add_file, save_files, get_file, assocGet_dictInsert_same]
  · intro k' hk
    cases writeOk <;>
      simp [add_file, save_files, get_file, assocGet_dictInsert_other _ _ _ _ hk]
  · rintro rfl
    simp [add_file, save_files]

/-- Witness for c6_add_file: insert into a store that already binds the
id, observe the overwrite, an untouched other id, and the disk write. -/
theorem c6_add_file_witness :
    get_file (add_file ⟨[(cl "abcd", sampleRecord)], none⟩ (cl "abcd")
      { sampleRecord with file_size := 7 } true) (cl "abcd") =
        some { sampleRecord with file_size := 7 } ∧
    get_file (add_file ⟨[(cl "abcd", sampleRecord)], none⟩ (cl "abcd")
      { sampleRecord with file_size := 7 } true) (cl "zzzz") =
        get_file ⟨[(cl "abcd", sampleRecord)], none⟩ (cl "zzzz") ∧
    (add_file ⟨[(cl "abcd", sampleRecord)], none⟩ (cl "abcd")
      { sampleRecord with file_size := 7 } true).disk =
        some ((add_file ⟨[(cl "abcd", sampleRecord)], none⟩ (cl "abcd")
          { sampleRecord with file_size := 7 } true).files) :=
  ⟨(c6_add_file _ _ _ _).1,
   (c6_add_file _ _ _ _).2.1 (cl "zzzz") (by decide),
   ((c6_add_file _ _ _ _).2.2 rfl).1⟩

/-- C7 counterexample: the constructor does not merely strip the leading
"s3." — str.replace removes every occurrence, so on "s3.s3.us-east-1" the
code yields "us-east-1" while strip-leading-only would give
"s3.us-east-1". -/
theorem c7_counterexample :
    wasabi_clean_region (cl "s3.s3.us-east-1") ≠
      claimStripLeading (cl "s3.s3.us-east-1") := by
  have h1 : cl "s3.s3.us-east-1" = cl "s3." ++ (cl "s3." ++ cl "us-east-1") := rfl
  have h2 : wasabi_clean_region (cl "s3.s3.us-east-1") = cl "us-east-1" := by
    rw [wasabi_clean_region, if_pos (by decide), h1,
        stripAll_append_self (by decide), stripAll_append_self (by decide),
        stripAll_not_occurs (by decide)]
  rw [h2]
  decide

/-- C7 amended: a region without the "s3." prefix is used unchanged; a
region starting with "s3." has every occurrence of "s3." removed, which
equals removing just the leading prefix whenever "s3." occurs nowhere in
the remainder. -/
theorem c7_clean_region (region : List Char) :
    ((cl "s3.").isPrefixOf region = false → wasabi_clean_region region = region) ∧
    (∀ rest, region = cl "s3." ++ rest →
      wasabi_clean_region region = stripAll (cl "s3.") rest) ∧
    (∀ rest, region = cl "s3." ++ rest → hasSub (cl "s3.") rest = false →
      wasabi_clean_region region = rest) := by
  refine ⟨?_, ?_, ?_⟩
  · intro h
    rw [wasabi_clean_region, if_neg]
    rw [h]
    exact Bool.false_ne_true
  · rintro rest rfl
    rw [wasabi_clean_region, if_pos (isPrefixOf_append _ _),
        stripAll_append_self (by decide)]
  · rintro rest rfl hno
    rw [wasabi_clean_region, if_pos (isPrefixOf_append _ _),
        stripAll_append_self (by decide), stripAll_not_occurs hno]

/-- Witness for c7_clean_region on both kinds of region strings. -/
theorem c7_clean_region_witness :
    wasabi_clean_region (cl "us-east-1") = cl "us-east-1" ∧
    wasabi_clean_region (cl "s3.ap-northeast-1") = cl "ap-northeast-1" :=
  ⟨(c7_clean_region (cl "us-east-1")).1 (by decide),
   (c7_clean_region (cl "s3.ap-northeast-1")).2.2 (cl "ap-northeast-1") rfl
      (by decide)⟩

/-- C8: the recent-uploads metric counts exactly the records whose
upload_date parses and lies in the elapsed-time window
0 ≤ now - t < 86400 s (timedelta .days == 0), i.e. a 24-hour sliding
window rather than a midnight-aligned calendar day; records whose parse
raises are skipped and the fold never fails. -/
theorem c8_recent_count (parseTs : List Char → Option Int) (now : Int)
    (files : Store) :
    get_stats_recent_count parseTs now files =
      (files.filter (fun p =>
        match parseTs p.2.upload_date with
        | some t => decide (0 ≤ now - t ∧ now - t < 86400)
        | none => false)).length := by
  unfold get_stats_recent_count
  have h := get_stats_recent_count_go parseTs now files 0
  rw [h]
  exact Nat.zero_add _

/-- C10: for every native file handle, the temp path lands directly in
the temp_files directory: it is "temp_files/" followed by a file name
containing no '/' and no '\' (separators sanitized to '_'). -/
theorem c10_temp_path (file_id : List Char) :
    ∃ name, temp_file_path file_id = cl "temp_files" ++ '/' :: name ∧
      ∀ c ∈ name, c ≠ '/' ∧ c ≠ '\\' := by
  refine ⟨cl "temp_" ++ safe_file_id file_id, rfl, ?_⟩
  intro c hc
  rcases List.mem_append.mp hc with h | h
  · have e : cl "temp_" = ['t', 'e', 'm', 'p', '_'] := rfl
    rw [e] at h
    simp only [List.mem_cons, List.not_mem_nil, or_false] at h
    rcases h with rfl | rfl | rfl | rfl | rfl <;> exact ⟨by decide, by decide⟩
  · simp only [safe_file_id, charReplace, List.mem_map] at h
    obtain ⟨b, ⟨a, ha, rfl⟩, rfl⟩ := h
    by_cases h1 : a = '/'
    · subst h1
      exact ⟨by decide, by decide⟩
    · by_cases h2 : a = '\\'
      · subst h2
        exact ⟨by decide, by decide⟩
      · simp only [if_neg h1, if_neg h2]
        exact ⟨h1, h2⟩

/-- C3: progress is two-phase and re-scaled: the download phase displays
(current/total)*50, staying in 0–50, the upload phase displays
50 + p/2, staying in 50–100; within a phase (progress non-decreasing),
an edit is emitted only when the phase has advanced by at least 5 points
of its own 0–100 scale (the code requires 5 points of the total scale,
which is 10 of the phase scale), or at a phase-boundary value. -/
theorem c3_progress_two_phase (current total last_progress upload_last p : ℚ)
    (hc0 : 0 ≤ current) (hct : current ≤ total) (ht : 0 < total)
    (hp0 : 0 ≤ p) (hp1 : p ≤ 100) :
    (0 ≤ download_progress_percent current total ∧
      download_progress_percent current total ≤ 50) ∧
    (last_progress ≤ download_progress_percent current total →
      download_progress_emits last_progress
          (download_progress_percent current total) = true →
      2 * (download_progress_percent current total - last_progress) ≥ 5 ∨
        download_progress_percent current total = 0 ∨
        download_progress_percent current total = 50) ∧
    (50 ≤ upload_total_percent p ∧ upload_total_percent p ≤ 100) ∧
    (upload_last ≤ upload_total_percent p →
      upload_progress_emits upload_last (upload_total_percent p) = true →
      2 * (upload_total_percent p - upload_last) ≥ 5 ∨
        upload_total_percent p = 100) := by
  have hdp0 : 0 ≤ download_progress_percent current total := by
    unfold download_progress_percent
    exact mul_nonneg (div_nonneg hc0 (le_of_lt ht)) (by norm_num)
  have hdp50 : download_progress_percent current total ≤ 50 := by
    unfold download_progress_percent
    have h1 : current / total ≤ 1 := (div_le_one ht).mpr hct
    have h2 := mul_le_mul_of_nonneg_right h1 (show (0:ℚ) ≤ 50 by norm_num)
    simpa using h2
  have hup50 : 50 ≤ upload_total_percent p := by
    unfold upload_total_percent
    linarith
  have hup100 : upload_total_percent p ≤ 100 := by
    unfold upload_total_percent
    linarith
  refine ⟨⟨hdp0, hdp50⟩, ?_, ⟨hup50, hup100⟩, ?_⟩
  · intro hle hem
    simp only [download_progress_emits, Bool.or_eq_true, decide_eq_true_eq] at hem
    rcases hem with (h | h) | h
    · rw [abs_of_nonneg (sub_nonneg.mpr hle)] at h
      left
      linarith
    · exact Or.inr (Or.inl h)
    · exact Or.inr (Or.inr (le_antisymm hdp50 h))
  · intro hle hem
    simp only [upload_progress_emits, Bool.or_eq_true, decide_eq_true_eq] at hem
    rcases hem with h | h
    · rw [abs_of_nonneg (sub_nonneg.mpr hle)] at h
      left
      linarith
    · exact Or.inr (le_antisymm hup100 h)

/-- Witness for c3_progress_two_phase: a mid-download edit at 25 of the
total scale and a terminal upload edit at 100. -/
theorem c3_progress_two_phase_witness :
    (2 * (download_progress_percent 1 2 - 0) ≥ 5 ∨
      download_progress_percent 1 2 = 0 ∨
      download_progress_percent 1 2 = 50) ∧
    (2 * (upload_total_percent 100 - 95) ≥ 5 ∨ upload_total_percent 100 = 100) :=
  ⟨(c3_progress_two_phase 1 2 0 95 100 (by norm_num) (by norm_num) (by norm_num)
      (by norm_num) (by norm_num)).2.1
      (by norm_num [download_progress_percent])
      (by norm_num [download_progress_emits, download_progress_percent]),
   (c3_progress_two_phase 1 2 0 95 100 (by norm_num) (by norm_num) (by norm_num)
      (by norm_num) (by norm_num)).2.2.2
      (by norm_num [upload_total_percent])
      (by norm_num [upload_progress_emits, upload_total_percent])⟩

/-- C9: for a single upload through the storage adapter (positive size,
non-negative transferred-byte chunks summing to the file size), the
sequence of percentages delivered to the progress callback is
monotonically non-decreasing and its final value is 100. -/
theorem c9_upload_reports (fileSize : ℚ) (chunks : List ℚ)
    (hfs : 0 < fileSize) (hc : ∀ c ∈ chunks, 0 ≤ c)
    (hsum : chunks.sum = fileSize) :
    (upload_file_reports fileSize chunks).Pairwise (· ≤ ·) ∧
    (upload_file_reports fileSize chunks).getLast? = some 100 := by
  constructor
  · exact uploadReportsFrom_pairwise fileSize chunks 0 0 hfs hc
  · have hne : chunks ≠ [] := by
      rintro rfl
      simp only [List.sum_nil] at hsum
      linarith
    exact uploadReportsFrom_getLast fileSize chunks 0 0 hfs hc
      (by rw [zero_add]; exact hsum) hne

/-- Witness for c9_upload_reports: a 10-byte upload in chunks 3, 3, 4. -/
theorem c9_upload_reports_witness :
    (upload_file_reports 10 [3, 3, 4]).Pairwise (· ≤ ·) ∧
    (upload_file_reports 10 [3, 3, 4]).getLast? = some 100 :=
  c9_upload_reports 10 [3, 3, 4] (by norm_num)
    (by intro c hcm; fin_cases hcm <;> norm_num) (by norm_num)

/-- C1 counterexample: a download_<id> button press by a non-owner
(user 7 on a record owned by 42) is dropped silently — the handler sends
no reply at all, in particular no access-denied message as the claim
requires for every callback-button variant. -/
theorem c1_counterexample :
    (handle_callback_query [(cl "abcd", sampleRecord)] true 7
        (cl "download_abcd")).reply = none ∧
    (handle_callback_query [(cl "abcd", sampleRecord)] true 7
        (cl "download_abcd")).reply ≠ some Reply.accessDenied := by
  have hs : stripAll (cl "download_") (cl "download_abcd") = cl "abcd" := by
    have h1 : cl "download_abcd" = cl "download_" ++ cl "abcd" := rfl
    rw [h1, stripAll_append_self (by decide), stripAll_not_occurs (by decide)]
  have h2 : handle_callback_query [(cl "abcd", sampleRecord)] true 7
      (cl "download_abcd") = cbDownload [(cl "abcd", sampleRecord)] 7 (cl "abcd") := by
    rw [handle_callback_query, if_neg (by decide), if_neg (by decide),
        if_neg (by decide), if_pos (by decide), hs]
  rw [h2]
  exact ⟨by decide, by decide⟩


/-- C1 amended: on an owner mismatch the /download, /stream and /web
commands reply with an access-denied message, disclose nothing and
presign nothing; the callback variants download_/stream_/web_/mx_/vlc_/
file_info_ of the same file id send no reply at all (silent drop) and
likewise disclose nothing and presign nothing. -/
theorem c1_ownership (fm : Store) (uid : Int) (fid : List Char)
    (r : FileRecord) (wasabiOk : Bool)
    (hget : assocGet fm fid = some r) (hne : r.user_id ≠ uid) :
    handle_download fm uid [fid] = ⟨some Reply.accessDenied, []⟩ ∧
    handle_stream fm uid [fid] = ⟨some Reply.accessDenied, []⟩ ∧
    handle_web_player fm uid [fid] = ⟨some Reply.accessDenied, []⟩ ∧
    (∀ rest, stripAll (cl "download_") (cl "download_" ++ rest) = fid →
      handle_callback_query fm wasabiOk uid (cl "download_" ++ rest) = ⟨none, []⟩) ∧
    (∀ rest, stripAll (cl "stream_") (cl "stream_" ++ rest) = fid →
      handle_callback_query fm wasabiOk uid (cl "stream_" ++ rest) = ⟨none, []⟩) ∧
    (∀ rest, stripAll (cl "web_") (cl "web_" ++ rest) = fid →
      handle_callback_query fm wasabiOk uid (cl "web_" ++ rest) = ⟨none, []⟩) ∧
    (∀ rest, stripAll (cl "mx_") (cl "mx_" ++ rest) = fid →
      handle_callback_query fm wasabiOk uid (cl "mx_" ++ rest) = ⟨none, []⟩) ∧
    (∀ rest, stripAll (cl "vlc_") (cl "vlc_" ++ rest) = fid →
      handle_callback_query fm wasabiOk uid (cl "vlc_" ++ rest) = ⟨none, []⟩) ∧
    (∀ rest, stripAll (cl "file_info_") (cl "file_info_" ++ rest) = fid →
      handle_callback_query fm wasabiOk uid (cl "file_info_" ++ rest) = ⟨none, []⟩) := by
  refine ⟨?_, ?_, ?_, ?_, ?_, ?_, ?_, ?_, ?_⟩
  · simp only [handle_download, hget]
    rw [if_pos hne]
  · simp only [handle_stream, hget]
    rw [if_pos hne]
  · simp only [handle_web_player, hget]
    rw [if_pos hne]
  · intro rest hstrip
    rw [handle_callback_query,
        if_neg (show ¬(cl "download_" ++ rest = cl "upload_file") from fun hA =>
          absurd (show some 'd' = some 'u' from congrArg List.head? hA)
            (by decide)),
        if_neg (show ¬(cl "download_" ++ rest = cl "list_files") from fun hA =>
          absurd (show some 'd' = some 'l' from congrArg List.head? hA)
            (by decide)),
        if_neg (show ¬(cl "download_" ++ rest = cl "test_connection") from fun hA =>
          absurd (show some 'd' = some 't' from congrArg List.head? hA)
            (by decide)),
        if_pos (isPrefixOf_append (cl "download_") rest), hstrip]
    simp only [cbDownload, hget]
    rw [if_neg (fun h => hne h)]
  · intro rest hstrip
    rw [handle_callback_query,
        if_neg (show ¬(cl "stream_" ++ rest = cl "upload_file") from fun hA =>
          absurd (show some 's' = some 'u' from congrArg List.head? hA)
            (by decide)),
        if_neg (show ¬(cl "stream_" ++ rest = cl "list_files") from fun hA =>
          absurd (show some 's' = some 'l' from congrArg List.head? hA)
            (by decide)),
        if_neg (show ¬(cl "stream_" ++ rest = cl "test_connection") from fun hA =>
          absurd (show some 's' = some 't' from congrArg List.head? hA)
            (by decide)),
        if_neg (show ¬((cl "download_").isPrefixOf (cl "stream_" ++ rest) = true) from
          fun h => Bool.false_ne_true h),
        if_pos (isPrefixOf_append (cl "stream_") rest), hstrip]
    simp only [cbStream, hget]
    rw [if_neg (fun h => hne h)]
  · intro rest hstrip
    rw [handle_callback_query,
        if_neg (show ¬(cl "web_" ++ rest = cl "upload_file") from fun hA =>
          absurd (show some 'w' = some 'u' from congrArg List.head? hA)
            (by decide)),
        if_neg (show ¬(cl "web_" ++ rest = cl "list_files") from fun hA =>
          absurd (show some 'w' = some 'l' from congrArg List.head? hA)
            (by decide)),
        if_neg (show ¬(cl "web_" ++ rest = cl "test_connection") from fun hA =>
          absurd (show some 'w' = some 't' from congrArg List.head? hA)
            (by decide)),
        if_neg (show ¬((cl "download_").isPrefixOf (cl "web_" ++ rest) = true) from
          fun h => Bool.false_ne_true h),
        if_neg (show ¬((cl "stream_").isPrefixOf (cl "web_" ++ rest) = true) from
          fun h => Bool.false_ne_true h),
        if_pos (isPrefixOf_append (cl "web_") rest), hstrip]
    simp only [cbWeb, cbStream, hget]
    rw [if_neg (fun h => hne h)]
  · intro rest hstrip
    rw [handle_callback_query,
        if_neg (show ¬(cl "mx_" ++ rest = cl "upload_file") from fun hA =>
          absurd (show some 'm' = some 'u' from congrArg List.head? hA)
            (by decide)),
        if_neg (show ¬(cl "mx_" ++ rest = cl "list_files") from fun hA =>
          absurd (show some 'm' = some 'l' from congrArg List.head? hA)
            (by decide)),
        if_neg (show ¬(cl "mx_" ++ rest = cl "test_connection") from fun hA =>
          absurd (show some 'm' = some 't' from congrArg List.head? hA)
            (by decide)),
        if_neg (show ¬((cl "download_").isPrefixOf (cl "mx_" ++ rest) = true) from
          fun h => Bool.false_ne_true h),
        if_neg (show ¬((cl "stream_").isPrefixOf (cl "mx_" ++ rest) = true) from
          fun h => Bool.false_ne_true h),
        if_neg (show ¬((cl "web_").isPrefixOf (cl "mx_" ++ rest) = true) from
          fun h => Bool.false_ne_true h),
        if_pos (isPrefixOf_append (cl "mx_") rest), hstrip]
    simp only [cbMx, cbStream, hget]
    rw [if_neg (fun h => hne h)]
  · intro rest hstrip
    rw [handle_callback_query,
        if_neg (show ¬(cl "vlc_" ++ rest = cl "upload_file") from fun hA =>
          absurd (show some 'v' = some 'u' from congrArg List.head? hA)
            (by decide)),
        if_neg (show ¬(cl "vlc_" ++ rest = cl "list_files") from fun hA =>
          absurd (show some 'v' = some 'l' from congrArg List.head? hA)
            (by decide)),
        if_neg (show ¬(cl "vlc_" ++ rest = cl "test_connection") from fun hA =>
          absurd (show some 'v' = some 't' from congrArg List.head? hA)
            (by decide)),
        if_neg (show ¬((cl "download_").isPrefixOf (cl "vlc_" ++ rest) = true) from
          fun h => Bool.false_ne_true h),
        if_neg (show ¬((cl "stream_").isPrefixOf (cl "vlc_" ++ rest) = true) from
          fun h => Bool.false_ne_true h),
        if_neg (show ¬((cl "web_").isPrefixOf (cl "vlc_" ++ rest) = true) from
          fun h => Bool.false_ne_true h),
        if_neg (show ¬((cl "mx_").isPrefixOf (cl "vlc_" ++ rest) = true) from
          fun h => Bool.false_ne_true h),
        if_pos (isPrefixOf_append (cl "vlc_") rest), hstrip]
    simp only [cbVlc, cbStream, hget]
    rw [if_neg (fun h => hne h)]
  · intro rest hstrip
    rw [handle_callback_query,
        if_neg (show ¬(cl "file_info_" ++ rest = cl "upload_file") from fun hA =>
          absurd (show some 'f' = some 'u' from congrArg List.head? hA)
            (by decide)),
        if_neg (show ¬(cl "file_info_" ++ rest = cl "list_files") from fun hA =>
          absurd (show some 'f' = some 'l' from congrArg List.head? hA)
            (by decide)),
        if_neg (show ¬(cl "file_info_" ++ rest = cl "test_connection") from fun hA =>
          absurd (show some 'f' = some 't' from congrArg List.head? hA)
            (by decide)),
        if_neg (show ¬((cl "download_").isPrefixOf (cl "file_info_" ++ rest) = true) from
          fun h => Bool.false_ne_true h),
        if_neg (show ¬((cl "stream_").isPrefixOf (cl "file_info_" ++ rest) = true) from
          fun h => Bool.false_ne_true h),
        if_neg (show ¬((cl "web_").isPrefixOf (cl "file_info_" ++ rest) = true) from
          fun h => Bool.false_ne_true h),
        if_neg (show ¬((cl "mx_").isPrefixOf (cl "file_info_" ++ rest) = true) from
          fun h => Bool.false_ne_true h),
        if_neg (show ¬((cl "vlc_").isPrefixOf (cl "file_info_" ++ rest) = true) from
          fun h => Bool.false_ne_true h),
        if_pos (isPrefixOf_append (cl "file_info_") rest), hstrip]
    simp only [cbFileInfo, hget]
    rw [if_neg (fun h => hne h)]

/-- Witness for c1_ownership: user 7 against a record of user 42. -/
theorem c1_ownership_witness :
    handle_stream [(cl "abcd", sampleRecord)] 7 [cl "abcd"] =
      ⟨some Reply.accessDenied, []⟩ ∧
    handle_callback_query [(cl "abcd", sampleRecord)] true 7
      (cl "stream_" ++ cl "abcd") = ⟨none, []⟩ :=
  ⟨(c1_ownership [(cl "abcd", sampleRecord)] 7 (cl "abcd") sampleRecord true
      (by decide) (by decide)).2.1,
   (c1_ownership [(cl "abcd", sampleRecord)] 7 (cl "abcd") sampleRecord true
      (by decide) (by decide)).2.2.2.2.1 (cl "abcd")
      (by rw [stripAll_append_self (by decide), stripAll_not_occurs (by decide)])⟩
